import Mathlib

/-!
Formal model of the URL utilities in `src/ubercode/utils/urls.py` of the
`python-ubercode-utils` repository.

Python strings are modelled as lists of characters (`Str := List Char`), scoped
to the ASCII range: the Python string methods used by the code (`strip`,
`find`, slicing, `split`, `replace`, `startswith`, `endswith`, membership) are
reimplemented below on `List Char` with their CPython semantics.  A Python
`None` string argument is modelled by the empty list: every use of an optional
string in the source only tests truthiness (where `None` and `""` agree) or
occurs after a truthiness guard, so the two are observationally equal there.

The source module delegates to the Python standard library:
`urllib.parse.urlsplit`/`geturl` (CPython 3.12 `urllib/parse.py`),
`os.path.dirname`/`normpath` and `pathlib.PurePath` (POSIX flavour, CPython
3.12 `posixpath.py`/`pathlib.py`).  Those routines are modelled here from
their CPython sources.  Scope notes for `urlsplit`: the model covers the
long-standing "Invalid IPv6 URL" error for an authority with unbalanced
square brackets; the additional host validations of newer interpreters
(`_check_bracketed_host`, the non-ASCII NFKC `_checknetloc` check) reject
further exotic inputs and are outside the model, as is non-ASCII case
mapping (the code only lower-cases validated ASCII scheme characters).

The repository's `ubercode.utils.convert` module (`to_str`, `to_int`,
`to_mask`) is not under `src/`; those three helpers are modelled from the
spec where marked below.
-/

abbrev Str := List Char

/-- Character list of a string literal (notation helper for concrete inputs). -/
def chars (x : String) : Str := x.data

/-- Python `str.isspace` characters (`str.strip()` with no argument strips
exactly these): ASCII tab/newline/vertical-tab/form-feed/carriage-return,
the file/group/record/unit separators U+001C-U+001F, space, and the Unicode
whitespace code points (NEL, NBSP, OGHAM SPACE MARK, the U+2000-U+200A
spaces, LINE/PARAGRAPH SEPARATOR, NARROW NBSP, MMSP, IDEOGRAPHIC SPACE). -/
def pyIsSpace (c : Char) : Bool :=
  (9 ≤ c.toNat && c.toNat ≤ 13) || (28 ≤ c.toNat && c.toNat ≤ 32) ||
  c.toNat = 0x85 || c.toNat = 0xa0 || c.toNat = 0x1680 ||
  (0x2000 ≤ c.toNat && c.toNat ≤ 0x200a) || c.toNat = 0x2028 || c.toNat = 0x2029 ||
  c.toNat = 0x202f || c.toNat = 0x205f || c.toNat = 0x3000

/-- Python `str.lstrip()`. -/
def pyLstrip (s : Str) : Str := s.dropWhile pyIsSpace

/-- Python `str.rstrip()`. -/
def pyRstrip (s : Str) : Str := (s.reverse.dropWhile pyIsSpace).reverse

/-- Python `str.strip()` (ASCII whitespace). -/
def pyStrip (s : Str) : Str := pyRstrip (pyLstrip s)

/-- Python `str.strip(ch)` for a single stripped character `ch`. -/
def pyStripChar (ch : Char) (s : Str) : Str :=
  ((s.dropWhile (· = ch)).reverse.dropWhile (· = ch)).reverse

/-- Python `ch in s` for a character. -/
def containsChar (s : Str) (c : Char) : Bool := s.any (· = c)

/-- Python `s.find(ch)` for a single character, `none` for `-1`. -/
def findChar (c : Char) : Str → Option Nat
  | [] => none
  | x :: xs => if x = c then some 0 else (findChar c xs).map (· + 1)

/-- Python `s.startswith(pat)`. -/
def isPrefixB : Str → Str → Bool
  | [], _ => true
  | _ :: _, [] => false
  | p :: ps, c :: cs => p = c && isPrefixB ps cs

/-- Python `s.endswith(pat)`. -/
def endsWithB (pat s : Str) : Bool := isPrefixB pat.reverse s.reverse

/-- Python `pat in s` for a substring pattern. -/
def isSubstrB (pat : Str) : Str → Bool
  | [] => isPrefixB pat []
  | c :: rest => isPrefixB pat (c :: rest) || isSubstrB pat rest

/-- Python `s.find(pat)` for a substring pattern, `none` for `-1`. -/
def findSub (pat : Str) : Str → Option Nat
  | [] => if isPrefixB pat [] then some 0 else none
  | c :: rest =>
    if isPrefixB pat (c :: rest) then some 0 else (findSub pat rest).map (· + 1)

/-- Python `s.split(sep)` for a single-character separator (always returns at
least one piece; empty pieces are kept). -/
def splitChar (sep : Char) : Str → List Str
  | [] => [[]]
  | c :: rest =>
    if c = sep then [] :: splitChar sep rest
    else
      match splitChar sep rest with
      | [] => [[c]]
      | t :: ts => (c :: t) :: ts

/-- Python `s.split(sep, 1)` for a single character present in `s`
(first-occurrence split; if `sep` is absent the whole string is the first
component and the second is empty). -/
def splitFirstChar (sep : Char) (s : Str) : Str × Str :=
  match findChar sep s with
  | some i => (s.take i, s.drop (i + 1))
  | none => (s, [])

/-- Modelled from the spec: `to_str` of the repository's
`ubercode.utils.convert` module, which is not under `src/`.  Inside
`ParsedQueryString` it is applied to values that are already strings, where
string coercion is the identity ("values coerced to string", section 4.1). -/
def to_str (s : Str) : Str := s

/-! ## ParsedQueryString (`urls.py` lines 7-45)

`self.params` is a Python `dict` built by repeated `params[key] = value`:
an ordered association list with unique keys, where assignment overwrites the
value of an existing key in place and appends a new key at the end. -/

/-- Python `params[key] = value` on an insertion-ordered `dict` represented as
an association list with unique keys. -/
def dictInsert : List (Str × Str) → Str → Str → List (Str × Str)
  | [], k, v => [(k, v)]
  | (k', v') :: rest, k, v =>
    if k' = k then (k', v) :: rest else (k', v') :: dictInsert rest k v

/-- Python `params.pop(key)` (ignoring the returned value) on an association
list with unique keys. -/
def dictErase : List (Str × Str) → Str → List (Str × Str)
  | [], _ => []
  | (k', v') :: rest, k => if k' = k then rest else (k', v') :: dictErase rest k

/-- Python `params.get(key, None)`. -/
def dictGetQ : List (Str × Str) → Str → Option Str
  | [], _ => none
  | (k', v) :: rest, k => if k' = k then some v else dictGetQ rest k

/-- Models `ParsedQueryString.__init__` lines 12-16: strip whitespace, then strip one
leading `?`; the result is `self.qs`. -/
def pqsStrip (query_string : Str) : Str :=
  let qs := pyStrip query_string
  if isPrefixB (chars "?") qs then qs.drop 1 else qs

/-- One iteration of the `for exp_param in exp_params` loop of
`ParsedQueryString.__init__` (lines 20-33). -/
def addToken (ps : List (Str × Str)) (token : Str) : List (Str × Str) :=
  let param := to_str token
  match findChar '=' param with
  | some pos =>
    let key := param.take pos
    let value := param.drop (pos + 1)
    if key ≠ [] then dictInsert ps key value else ps
  | none => if param ≠ [] then dictInsert ps param [] else ps

/-- Models `ParsedQueryString(query_string).params`. -/
def parseParams (query_string : Str) : List (Str × Str) :=
  (splitChar '&' (pqsStrip query_string)).foldl addToken []

/-- Models `ParsedQueryString.__str__` (lines 35-45): concatenate `key=value&` and
drop the final `&`. -/
def pqsStr (params : List (Str × Str)) : Str :=
  let qs := params.foldl (fun acc kv => acc ++ kv.1 ++ '=' :: to_str kv.2 ++ ['&']) []
  if qs ≠ [] then qs.dropLast else qs

/-! ## `urllib.parse.urlsplit` / `geturl` (CPython 3.12 `urllib/parse.py`)

`urlsplit(url, scheme, allow_fragments)` produces the 5-tuple
`SplitResult(scheme, netloc, path, query, fragment)`; `geturl` is
`urlunsplit` of that tuple. -/

structure SplitResult where
  scheme : Str
  netloc : Str
  path : Str
  query : Str
  fragment : Str
deriving DecidableEq, Repr

/-- A C0 control character or space (`_WHATWG_C0_CONTROL_OR_SPACE`). -/
def isC0OrSpace (c : Char) : Bool := c.toNat ≤ 32

/-- Removal of `_UNSAFE_URL_BYTES_TO_REMOVE` (tab, carriage return, newline):
the successive `replace(b, "")` calls amount to a filter. -/
def removeUnsafeBytes (s : Str) : Str :=
  s.filter (fun c => !(c = '\t' || c = '\r' || c = '\n'))

/-- Models `url.lstrip(_WHATWG_C0_CONTROL_OR_SPACE)` followed by unsafe-byte removal. -/
def wsCleanUrl (url : Str) : Str := removeUnsafeBytes (url.dropWhile isC0OrSpace)

/-- Models `scheme.strip(_WHATWG_C0_CONTROL_OR_SPACE)` followed by unsafe-byte
removal (applied to the default scheme argument). -/
def schemeClean (sch : Str) : Str :=
  removeUnsafeBytes (((sch.dropWhile isC0OrSpace).reverse.dropWhile isC0OrSpace).reverse)

/-- ASCII letter (`url[0].isascii() and url[0].isalpha()`). -/
def isAsciiAlpha (c : Char) : Bool := ('a' ≤ c && c ≤ 'z') || ('A' ≤ c && c ≤ 'Z')

/-- Member of `scheme_chars` (ASCII letters, digits, `+`, `-`, `.`). -/
def isSchemeChar (c : Char) : Bool :=
  isAsciiAlpha c || c.isDigit || c = '+' || c = '-' || c = '.'

/-- ASCII lower-casing of one character (the scheme is validated to be ASCII
before `lower()` is applied). -/
def asciiLower (c : Char) : Char :=
  if 'A' ≤ c && c ≤ 'Z' then Char.ofNat (c.toNat + 32) else c

/-- The scheme-detection step of `urlsplit`: `i = url.find(':')`, and if
`i > 0`, `url[0]` is an ASCII letter and all of `url[:i]` are scheme
characters, return the lowered scheme and the rest of the url. -/
def schemeSplit (url : Str) : Option (Str × Str) :=
  match findChar ':' url with
  | some i =>
    if 0 < i ∧ isAsciiAlpha (url.headD '0') = true ∧ (url.take i).all isSchemeChar = true then
      some ((url.take i).map asciiLower, url.drop (i + 1))
    else none
  | none => none

/-- Models `_splitnetloc(url, 2)` guarded by `url[:2] == '//'`: the netloc runs up to
the first `/`, `?` or `#` after the two slashes. -/
def netlocSplit (url : Str) : Str × Str :=
  if isPrefixB (chars "//") url then
    let rest := url.drop 2
    (rest.takeWhile (fun c => !(c = '/' || c = '?' || c = '#')),
     rest.dropWhile (fun c => !(c = '/' || c = '?' || c = '#')))
  else ([], url)

/-- Models `urlsplit` (validation errors are raised by the caller model via
`invalidIpv6` below, before the result is used). -/
def urlsplit (url0 scheme0 : Str) (allow_fragments : Bool) : SplitResult :=
  let url := wsCleanUrl url0
  let schemeUrl := match schemeSplit url with
    | some p => p
    | none => (schemeClean scheme0, url)
  let nl := netlocSplit schemeUrl.2
  let urlFrag :=
    if allow_fragments ∧ containsChar nl.2 '#' = true then splitFirstChar '#' nl.2
    else (nl.2, [])
  let pathQuery :=
    if containsChar urlFrag.1 '?' = true then splitFirstChar '?' urlFrag.1
    else (urlFrag.1, [])
  ⟨schemeUrl.1, nl.1, pathQuery.1, pathQuery.2, urlFrag.2⟩

/-- The "Invalid IPv6 URL" condition of `urlsplit`: the netloc contains `[`
without `]` or `]` without `[`. -/
def invalidIpv6 (netloc : Str) : Bool :=
  (containsChar netloc '[' && !containsChar netloc ']') ||
  (containsChar netloc ']' && !containsChar netloc '[')

/-- Models `urlunsplit` (= `SplitResult.geturl`), in its long-standing form:
the authority separator is emitted when the netloc is nonempty or the path
starts with `//` (CPython through 3.11.x).  CPython 3.12 additionally emits
`//` for an empty authority when the scheme is in `uses_netloc`; that case
differs only on empty-netloc tuples with a non-`http(s)` special scheme,
which no theorem below exercises — every render proved here is identical
under both forms. -/
def urlunsplit (r : SplitResult) : Str :=
  let url := r.path
  let url :=
    if r.netloc ≠ [] ∨ (url ≠ [] ∧ isPrefixB (chars "//") url = true) then
      '/' :: '/' :: (r.netloc ++ (if url ≠ [] ∧ ¬ isPrefixB (chars "/") url = true then '/' :: url else url))
    else url
  let url := if r.scheme ≠ [] then r.scheme ++ ':' :: url else url
  let url := if r.query ≠ [] then url ++ '?' :: r.query else url
  if r.fragment ≠ [] then url ++ '#' :: r.fragment else url

/-! ## `posixpath.dirname` / `posixpath.normpath` / `PurePath` (POSIX) -/

/-- Last index of `c` in `s` (`s.rfind(c)`), `none` for `-1`. -/
def rfindChar (c : Char) (s : Str) : Option Nat :=
  (findChar c s.reverse).map (fun j => s.length - 1 - j)

/-- Models `posixpath.dirname`: everything up to and including the last `/`, with
trailing slashes stripped unless the head is all slashes. -/
def dirname (p : Str) : Str :=
  let i := match rfindChar '/' p with
    | some k => k + 1
    | none => 0
  let head := p.take i
  if head ≠ [] ∧ ¬ head.all (· = '/') = true then (head.reverse.dropWhile (· = '/')).reverse
  else head

/-- Models `posixpath.join(a, b)` (two arguments). -/
def pjoin (a b : Str) : Str :=
  if isPrefixB (chars "/") b then b
  else if a = [] ∨ endsWithB (chars "/") a = true then a ++ b
  else a ++ '/' :: b

/-- The POSIX root of a raw path string: `//` exactly for a double (not
triple) leading slash, else `/` for a leading slash, else empty. -/
def pathRoot (raw : Str) : Str :=
  if isPrefixB (chars "//") raw ∧ ¬ isPrefixB (chars "///") raw = true then chars "//"
  else if isPrefixB (chars "/") raw then chars "/"
  else []

/-- Models `str(PurePath(a, b))` with POSIX flavour: join the two arguments with
`posixpath.join`, then drop empty and `.` segments, keeping the root
(CPython 3.12 `pathlib._parse_path` + `_format_parsed_parts`; the empty
parse renders as `.`). -/
def purePathStr (a b : Str) : Str :=
  let raw := pjoin a b
  if raw = [] then chars "."
  else
    let res := pathRoot raw ++
      List.intercalate (chars "/") ((splitChar '/' raw).filter (fun x => x != [] && x != chars "."))
    if res = [] then chars "." else res

/-- Models `posixpath.normpath` (for nonempty input; the code only applies it to a
joined path, which is never empty). -/
def normpath (p : Str) : Str :=
  if p = [] then chars "."
  else
    let initialSlashes : Nat :=
      if isPrefixB (chars "//") p ∧ ¬ isPrefixB (chars "///") p = true then 2
      else if isPrefixB (chars "/") p then 1
      else 0
    let newComps := (splitChar '/' p).foldl (fun acc comp =>
      if comp = [] ∨ comp = chars "." then acc
      else if comp ≠ chars ".." ∨ (initialSlashes = 0 ∧ acc = []) ∨
              (acc ≠ [] ∧ acc.getLast? = some (chars "..")) then acc ++ [comp]
      else acc.dropLast) []
    let joined := List.replicate initialSlashes '/' ++ List.intercalate (chars "/") newComps
    if joined = [] then chars "." else joined

/-! ## ParsedUrl (`urls.py` lines 48-217)

The mutable state of a `ParsedUrl` is exactly its `self.parsed` 5-tuple
(every property reads or `_replace`s it), so a `ParsedUrl` is modelled by a
`SplitResult` and the constructor by a function to `Except UrlError
SplitResult`. -/

inductive UrlError where
  | invalidInput
  | invalidIpv6Url
deriving DecidableEq, Repr

/-- Models `ParsedUrl.url_filter` (lines 201-210): strip leading/trailing whitespace
(a `None` argument, modelled as the empty list, is passed through falsy). -/
def url_filter (url : Str) : Str := pyStrip url

/-- Line 67-68: adopt `default_scheme` if it is truthy, the parsed scheme is
empty and the netloc is nonempty. -/
def applyDefaultScheme (default_scheme : Str) (p : SplitResult) : SplitResult :=
  if default_scheme ≠ [] ∧ p.scheme = [] ∧ p.netloc ≠ [] then
    { p with scheme := default_scheme }
  else p

/-- Membership of the parsed scheme in `["http", "https", ""]`. -/
def hierScheme (sch : Str) : Prop := sch = chars "http" ∨ sch = chars "https" ∨ sch = []

instance (sch : Str) : Decidable (hierScheme sch) := by
  unfold hierScheme; infer_instance

/-- Lines 69-70: adopt `default_netloc` if it is truthy, the parsed netloc is
empty and the scheme is hierarchical. -/
def applyDefaultNetloc (default_netloc : Str) (p : SplitResult) : SplitResult :=
  if default_netloc ≠ [] ∧ p.netloc = [] ∧ hierScheme p.scheme then
    { p with netloc := default_netloc }
  else p

/-- Lines 71-84: join the path under `default_filepath` when the latter is
truthy, not a substring of `filepath` (= `dirname` of the path) and the
scheme is hierarchical; normalize `..` unless `symlinks`; restore a trailing
slash; force a trailing slash when the result ends with `default_filepath`
(or ends with `default_filepath[:-1]` and has no trailing slash — the
Python `or`/`and` precedence of line 82). -/
def applyDefaultFilepath (default_filepath : Str) (symlinks : Bool) (p : SplitResult) :
    SplitResult :=
  if default_filepath ≠ [] ∧ isSubstrB default_filepath (dirname p.path) = false ∧
      hierScheme p.scheme then
    let newPath := purePathStr default_filepath p.path
    let newPath :=
      if symlinks = false ∧ isSubstrB (chars "..") newPath = true then normpath newPath
      else newPath
    let newPath :=
      if endsWithB (chars "/") p.path = true ∧ endsWithB (chars "/") newPath = false then
        newPath ++ ['/']
      else newPath
    let newPath :=
      if endsWithB default_filepath newPath = true ∨
          (endsWithB default_filepath.dropLast newPath = true ∧
           endsWithB (chars "/") newPath = false) then
        newPath ++ ['/']
      else newPath
    { p with path := newPath }
  else p

/-- Lines 85-87: if there is a scheme but no netloc and the scheme is `http`
or `https`, clear the scheme. -/
def dropBareScheme (p : SplitResult) : SplitResult :=
  if p.netloc = [] ∧ p.scheme ≠ [] ∧ (p.scheme = chars "http" ∨ p.scheme = chars "https") then
    { p with scheme := [] }
  else p

/-- Models `ParsedUrl.__init__` (lines 60-87).  Parameters follow the Python
signature order `(url, default_netloc, default_scheme, default_filepath,
allow_fragments, symlinks)`; absent (`None`) defaults are the empty list.
`urlsplit` is called as `urlsplit(self.url_filter(url), default_scheme or
"", allow_fragments)`; its "Invalid IPv6 URL" `ValueError` is surfaced as
`UrlError.invalidIpv6Url`. -/
def parsedUrlInit (url default_netloc default_scheme default_filepath : Str)
    (allow_fragments symlinks : Bool) : Except UrlError SplitResult :=
  let f := url_filter url
  if f = [] then .error .invalidInput
  else
    let p := urlsplit f default_scheme allow_fragments
    if invalidIpv6 p.netloc = true then .error .invalidIpv6Url
    else
      .ok (dropBareScheme (applyDefaultFilepath default_filepath symlinks
        (applyDefaultNetloc default_netloc (applyDefaultScheme default_scheme p))))

/-! ### ParsedUrl accessors used by the claims -/

/-- The netloc after the last `@` (`netloc.rpartition('@')[2]`). -/
def afterLastAt (netloc : Str) : Str := (netloc.reverse.takeWhile (· ≠ '@')).reverse

/-- Python `s.partition(c)[2]`: everything after the first `c`, empty when
`c` is absent. -/
def partitionAfter (c : Char) (s : Str) : Str :=
  match findChar c s with
  | some i => s.drop (i + 1)
  | none => []

/-- Models `SplitResult._hostinfo`, port component: the netloc after the last `@`;
inside `[...]` brackets when present, otherwise after the first `:`; `none`
when empty. -/
def hostinfoPortStr (netloc : Str) : Str :=
  let hostinfo := afterLastAt netloc
  if containsChar hostinfo '[' then
    partitionAfter ':' (partitionAfter ']' (partitionAfter '[' hostinfo))
  else partitionAfter ':' hostinfo

/-- Models `SplitResult.port`: the port string parsed as a decimal integer in
`0..65535`.  The model returns `some` exactly for an all-digit port string in
range; CPython raises `ValueError` for a nonempty non-digit or out-of-range
port (and also accepts signed/spaced/underscored spellings of `int`), all of
which are outside the model and mapped to `none`.  Theorems below only rely
on the `some` cases, where the model and CPython agree. -/
def digitsToNat? (s : Str) : Option Nat :=
  if s ≠ [] ∧ s.all Char.isDigit = true then
    some (s.foldl (fun a c => a * 10 + (c.toNat - 48)) 0)
  else none

def splitResultPort (netloc : Str) : Option Nat :=
  let p := hostinfoPortStr netloc
  if p = [] then none
  else
    match digitsToNat? p with
    | some n => if n ≤ 65535 then some n else none
    | none => none

/-- Decimal digits of a natural number (`str(port)` for the nonnegative
ports produced by `SplitResult.port`).  Structural recursion on a fuel
argument (sufficient whenever `n < 10 ^ (fuel + 1)`) keeps the definition
kernel-reducible. -/
def digitChar (d : Nat) : Char := Char.ofNat (48 + d)

def natReprF : Nat → Nat → Str
  | 0, n => [digitChar (n % 10)]
  | fuel + 1, n => if n < 10 then [digitChar n] else natReprF fuel (n / 10) ++ [digitChar (n % 10)]

def natRepr (n : Nat) : Str := natReprF n n

/-- The `domain` setter (lines 151-155): if the parsed port is truthy and its
decimal string is not a substring of the new value, append `:port` to the
value; then replace the netloc wholesale.  (Where `SplitResult.port` would
raise, the model keeps the value unchanged; theorems below only instantiate
the well-formed-port cases.) -/
def domainValue (r : SplitResult) (value : Str) : Str :=
  match splitResultPort r.netloc with
  | some p =>
    if 0 < p ∧ isSubstrB (natRepr p) value = false then value ++ ':' :: natRepr p
    else value
  | none => value

def domainSet (r : SplitResult) (value : Str) : SplitResult :=
  { r with netloc := domainValue r value }

/-- Models `ParsedUrl.get_param` (lines 184-186). -/
def get_param (r : SplitResult) (key : Str) : Option Str :=
  dictGetQ (parseParams r.query) key

/-- Models `ParsedUrl.set_param` (lines 188-192). -/
def set_param (r : SplitResult) (key value : Str) : SplitResult :=
  { r with query := pqsStr (dictInsert (parseParams r.query) key value) }

/-- Models `ParsedUrl.del_param` (lines 194-199). -/
def del_param (r : SplitResult) (key : Str) : SplitResult :=
  { r with query := pqsStr (dictErase (parseParams r.query) key) }

/-! ## DjUrl (`urls.py` lines 219-334)

Python instance attributes are dynamically typed: decoding stores strings,
`to_int` stores an integer port, and `from_dict` stores whatever the
dictionary holds.  Values are therefore modelled by a small dynamic type
`PyVal`; an absent (`None`) field is `none`. -/

inductive PyVal where
  | str : Str → PyVal
  | int : Int → PyVal
deriving DecidableEq, Repr

structure DjUrl where
  engine : Option PyVal
  user : Option PyVal
  password : Option PyVal
  host : Option PyVal
  port : Option PyVal
  name : Option PyVal
deriving DecidableEq, Repr

/-- Python `s.strip() or None` for a string `s`, wrapped as a `PyVal`. -/
def strOrNone (s : Str) : Option PyVal := if s = [] then none else some (.str s)

/-- Modelled from the spec: `to_int` of the repository's
`ubercode.utils.convert` module, which is not under `src/` ("`port` is
parsed as an integer, and if parsing fails it must resolve to absent rather
than raising", section 4.2): decimal parse with an optional sign. -/
def to_int (s : Str) : Option Int :=
  match s with
  | '-' :: rest => (digitsToNat? rest).map (fun n => -(n : Int))
  | '+' :: rest => (digitsToNat? rest).map (fun n => (n : Int))
  | _ => (digitsToNat? s).map (fun n => (n : Int))

/-- Modelled from the spec: `to_mask` of the repository's
`ubercode.utils.convert` module, which is not under `src/` ("a fixed masking
transform that keeps first/last character and replaces the middle (or a
full mask for very short values)", section 4.2; `tiger` renders `t***r` in
the tests). -/
def to_mask (s : Str) : Str :=
  if s.length < 3 then chars "***"
  else [s.headD '*'] ++ chars "***" ++ [s.getLastD '*']

/-- Python `s.replace('%40', '@')`. -/
def decodeAt : Str → Str
  | '%' :: '4' :: '0' :: rest => '@' :: decodeAt rest
  | c :: rest => c :: decodeAt rest
  | [] => []

/-- Lines 240-243: detect and strip the trailing `?--atencoded` marker,
re-stripping whitespace. -/
def djMarker (d : Str) : Bool × Str :=
  if endsWithB (chars "?--atencoded") d then
    (true, pyStrip (d.take (d.length - 12)))
  else (false, d)

/-- Lines 246-251: split on the first `://`; text before is the engine. -/
def djEngineSplit (d : Str) : Option PyVal × Str :=
  match findSub (chars "://") d with
  | some pos => (strOrNone (pyStrip (d.take pos)), pyStrip (d.drop (pos + 3)))
  | none => (none, d)

/-- Lines 252-274: split the login segment on the first `@` (user before the
first `:`, password after, `%40` decoded when the marker was present); with
no `@`, a remainder starting with `:` yields the password `constr.strip(':')`
and an empty remainder.  (CPython would raise `AttributeError` on
`None.replace` when the password is empty and the marker set; the model
returns `none` there — no theorem relies on that corner.) -/
def djLoginSplit (encoded : Bool) (constr : Str) : Option PyVal × Option PyVal × Str :=
  match findChar '@' constr with
  | some pos =>
    let loginstr := pyStrip (constr.take pos)
    let rest := pyStrip (constr.drop (pos + 1))
    match findChar ':' loginstr with
    | some cpos =>
      let u := strOrNone (pyStrip (loginstr.take cpos))
      let pw0 := pyStrip (loginstr.drop (cpos + 1))
      let pw := if pw0 = [] then none
        else some (PyVal.str (if encoded then decodeAt pw0 else pw0))
      (u, pw, rest)
    | none => (if loginstr ≠ [] then some (.str loginstr) else none, none, rest)
  | none =>
    if isPrefixB (chars ":") constr then
      let pw0 := pyStripChar ':' constr
      (none, some (.str (if encoded then decodeAt pw0 else pw0)), [])
    else (none, none, constr)

/-- Lines 277-282: split the remainder on the first `/` into host string and
database name. -/
def djHostNameSplit (constr : Str) : Str × Option PyVal :=
  match findChar '/' constr with
  | some pos => (pyStrip (constr.take pos), strOrNone (pyStrip (constr.drop (pos + 1))))
  | none => (constr, none)

/-- Lines 284-291: split the host string on the first `:` into host and
integer port. -/
def djHostPortSplit (hoststr : Str) : Option PyVal × Option PyVal :=
  match findChar ':' hoststr with
  | some pos =>
    let h := strOrNone (pyStrip (hoststr.take pos))
    let pstr := pyStrip (hoststr.drop (pos + 1))
    (h, if pstr ≠ [] then (to_int pstr).map PyVal.int else none)
  | none => (if hoststr ≠ [] then some (.str hoststr) else none, none)

/-- Models `DjUrl.__init__` (lines 227-291); a `None` argument is modelled as the
empty list (the code replaces `None` by `""`). -/
def djUrlDecode (dj_url : Str) : DjUrl :=
  let d0 := pyStrip dj_url
  let ed := djMarker d0
  if ed.2 = [] then ⟨none, none, none, none, none, none⟩
  else
    let ec := djEngineSplit ed.2
    let upc := djLoginSplit ed.1 ec.2
    let hn := djHostNameSplit upc.2.2
    let hp := djHostPortSplit hn.1
    ⟨ec.1, upc.1, upc.2.1, hp.1, hp.2, hn.2⟩

/-- String rendering of a `PyVal` (Python `f"..."` interpolation). -/
def intRepr (z : Int) : Str := if z < 0 then '-' :: natRepr z.natAbs else natRepr z.natAbs

def pyValStr : PyVal → Str
  | .str s => s
  | .int z => intRepr z

/-- Python truthiness of an optional field (`None`, `""` and `0` are falsy). -/
def pyTruthy : Option PyVal → Bool
  | none => false
  | some (.str s) => s ≠ []
  | some (.int z) => z ≠ 0

/-- Python `x or ''` rendered into an f-string. -/
def renderOrEmpty (o : Option PyVal) : Str :=
  match o with
  | some v => if pyTruthy (some v) then pyValStr v else []
  | none => []

/-- Models `DjUrl.__str__` (lines 323-334). -/
def djUrlStr (u : DjUrl) : Str :=
  let url := renderOrEmpty u.engine ++ chars "://"
  let url := if pyTruthy u.user then url ++ pyValStr (u.user.getD (.str [])) else url
  let url := if pyTruthy u.password then
      url ++ ':' :: to_mask (pyValStr (u.password.getD (.str []))) else url
  let url := url ++ '@' :: renderOrEmpty u.host
  let url := if pyTruthy u.port then url ++ ':' :: pyValStr (u.port.getD (.str [])) else url
  if pyTruthy u.name then url ++ '/' :: pyValStr (u.name.getD (.str [])) else url

/-- A dictionary of override properties (`from_dict` argument): string keys
mapping to values, with Python `dict.get`. -/
def propsGet (d : List (Str × PyVal)) (k : Str) : Option PyVal :=
  (d.find? (fun kv => kv.1 = k)).map (fun kv => kv.2)

/-- Models `DjUrl.from_dict` (lines 294-307).  The loop iterates the six class
attributes `vars(DjUrl)` with their class-level values (`None` each), so a
key absent from the dictionary sets the field to the class default `None` —
the instance argument's current field values are never read. -/
def fromDict (_u : DjUrl) (d : List (Str × PyVal)) : DjUrl :=
  ⟨propsGet d (chars "ENGINE"), propsGet d (chars "USER"), propsGet d (chars "PASSWORD"),
   propsGet d (chars "HOST"), propsGet d (chars "PORT"), propsGet d (chars "NAME")⟩

/-! ## Cleanliness predicates for query strings

`ParsedQueryString` re-parses a serialized query each time, and its
constructor strips whitespace and one leading `?` from the raw string.  The
round-trip statements below therefore restrict keys, values and queries to
characters that this normalization cannot touch. -/

/-- A query string whose characters survive the `ParsedQueryString`
normalization (no whitespace, no `?`). -/
def qsClean (q : Str) : Prop := ∀ c ∈ q, pyIsSpace c = false ∧ c ≠ '?'

/-- A parameter key that serializes and re-parses to itself in any position:
nonempty and free of `&`, `=`, whitespace and `?`. -/
def keyClean (k : Str) : Prop :=
  k ≠ [] ∧ ∀ c ∈ k, c ≠ '&' ∧ c ≠ '=' ∧ pyIsSpace c = false ∧ c ≠ '?'

/-- A parameter value that serializes and re-parses to itself: free of `&`
and whitespace (it may contain further `=` characters). -/
def valClean (v : Str) : Prop := ∀ c ∈ v, c ≠ '&' ∧ pyIsSpace c = false

/-- A parameter association list whose serialization re-parses to itself. -/
def paramsClean (ps : List (Str × Str)) : Prop :=
  (∀ kv ∈ ps, keyClean kv.1 ∧ valClean kv.2) ∧ (ps.map Prod.fst).Nodup

instance (q : Str) : Decidable (qsClean q) := by
  unfold qsClean; infer_instance

instance (k : Str) : Decidable (keyClean k) := by
  unfold keyClean; infer_instance

instance (v : Str) : Decidable (valClean v) := by
  unfold valClean; infer_instance

/-! # Theorems

First, generic lemmas about the string primitives; then the query-string
round trip; then the claim theorems. -/

theorem findChar_eq_none_iff {c : Char} {s : Str} :
    findChar c s = none ↔ ∀ x ∈ s, x ≠ c := by
  induction s with
  | nil => simp [findChar]
  | cons x xs ih =>
    by_cases hx : x = c <;> simp [findChar, hx, ih]

theorem findChar_lt_length {c : Char} {s : Str} {i : Nat} (h : findChar c s = some i) :
    i < s.length := by
  induction s generalizing i with
  | nil => simp [findChar] at h
  | cons x xs ih =>
    by_cases hx : x = c
    · simp only [findChar, if_pos hx, Option.some.injEq] at h
      simp [← h]
    · simp only [findChar, if_neg hx, Option.map_eq_some'] at h
      obtain ⟨j, hj, hij⟩ := h
      have := ih hj
      simp only [List.length_cons]
      omega

theorem findChar_append {c : Char} {a b : Str} (h : ∀ x ∈ a, x ≠ c) :
    findChar c (a ++ c :: b) = some a.length := by
  induction a with
  | nil => simp [findChar]
  | cons x xs ih =>
    have hx : x ≠ c := h x (by simp)
    simp only [List.cons_append, findChar, if_neg hx, List.append_eq]
    rw [ih (fun y hy => h y (by simp [hy]))]
    simp

theorem containsChar_eq_false_iff {s : Str} {c : Char} :
    containsChar s c = false ↔ ∀ x ∈ s, x ≠ c := by
  simp [containsChar]

theorem splitChar_ne_nil (sep : Char) (s : Str) : splitChar sep s ≠ [] := by
  cases s with
  | nil => simp [splitChar]
  | cons c rest =>
    by_cases h : c = sep
    · simp [splitChar, h]
    · simp only [splitChar, if_neg h]
      cases hr : splitChar sep rest <;> simp

theorem mem_splitChar_not_sep {sep : Char} {s t : Str} (ht : t ∈ splitChar sep s) :
    ∀ x ∈ t, x ≠ sep := by
  induction s generalizing t with
  | nil =>
    simp [splitChar] at ht
    simp [ht]
  | cons c rest ih =>
    by_cases h : c = sep
    · simp only [splitChar, if_pos h, List.mem_cons] at ht
      rcases ht with rfl | ht
      · simp
      · exact ih ht
    · simp only [splitChar, if_neg h] at ht
      cases hr : splitChar sep rest with
      | nil => exact absurd hr (splitChar_ne_nil sep rest)
      | cons t0 ts =>
        rw [hr] at ht
        simp only [List.mem_cons] at ht
        rcases ht with rfl | ht
        · intro x hx
          rcases List.mem_cons.mp hx with rfl | hx
          · exact h
          · exact ih (by rw [hr]; simp) x hx
        · exact ih (by rw [hr]; simp [ht])

theorem mem_splitChar_mem {sep : Char} {s t : Str} (ht : t ∈ splitChar sep s) :
    ∀ x ∈ t, x ∈ s := by
  induction s generalizing t with
  | nil =>
    simp [splitChar] at ht
    simp [ht]
  | cons c rest ih =>
    by_cases h : c = sep
    · simp only [splitChar, if_pos h, List.mem_cons] at ht
      rcases ht with rfl | ht
      · simp
      · intro x hx
        exact List.mem_cons_of_mem _ (ih ht x hx)
    · simp only [splitChar, if_neg h] at ht
      cases hr : splitChar sep rest with
      | nil => exact absurd hr (splitChar_ne_nil sep rest)
      | cons t0 ts =>
        rw [hr] at ht
        simp only [List.mem_cons] at ht
        rcases ht with rfl | ht
        · intro x hx
          rcases List.mem_cons.mp hx with rfl | hx
          · simp
          · exact List.mem_cons_of_mem _ (ih (by rw [hr]; simp) x hx)
        · intro x hx
          exact List.mem_cons_of_mem _ (ih (by rw [hr]; simp [ht]) x hx)

theorem splitChar_eq_single {sep : Char} {s : Str} (h : ∀ x ∈ s, x ≠ sep) :
    splitChar sep s = [s] := by
  induction s with
  | nil => simp [splitChar]
  | cons c rest ih =>
    have hc : c ≠ sep := h c (by simp)
    simp only [splitChar, if_neg hc]
    rw [ih (fun y hy => h y (by simp [hy]))]

theorem splitChar_append_cons {sep : Char} {a b : Str} (h : ∀ x ∈ a, x ≠ sep) :
    splitChar sep (a ++ sep :: b) = a :: splitChar sep b := by
  induction a with
  | nil => simp [splitChar]
  | cons c rest ih =>
    have hc : c ≠ sep := h c (by simp)
    simp only [List.cons_append, splitChar, if_neg hc, List.append_eq]
    rw [ih (fun y hy => h y (by simp [hy]))]

theorem dropWhile_eq_self_of {p : Char → Bool} {s : Str} (h : ∀ x ∈ s, p x = false) :
    s.dropWhile p = s := by
  cases s with
  | nil => rfl
  | cons x xs => simp [List.dropWhile, h x (by simp)]

theorem takeWhile_eq_self_of {p : Char → Bool} {s : Str} (h : ∀ x ∈ s, p x = true) :
    s.takeWhile p = s :=
  List.takeWhile_eq_self_iff.mpr h

theorem pyStrip_eq_self {s : Str} (h : ∀ x ∈ s, pyIsSpace x = false) :
    pyStrip s = s := by
  unfold pyStrip pyLstrip pyRstrip
  rw [dropWhile_eq_self_of h,
    dropWhile_eq_self_of (fun x hx => h x (List.mem_reverse.mp hx)), List.reverse_reverse]

theorem mem_pyStrip {s : Str} {c : Char} (h : c ∈ pyStrip s) : c ∈ s := by
  unfold pyStrip pyLstrip pyRstrip at h
  rw [List.mem_reverse] at h
  have h1 := (@List.dropWhile_sublist Char ((s.dropWhile pyIsSpace).reverse) pyIsSpace).mem h
  rw [List.mem_reverse] at h1
  exact (List.dropWhile_sublist pyIsSpace).mem h1

theorem mem_pqsStrip {q : Str} {c : Char} (h : c ∈ pqsStrip q) : c ∈ q := by
  unfold pqsStrip at h
  by_cases hp : isPrefixB (chars "?") (pyStrip q) = true
  · rw [if_pos hp] at h
    exact mem_pyStrip ((List.drop_sublist 1 _).mem h)
  · rw [if_neg hp] at h
    exact mem_pyStrip h

theorem findChar_take {c : Char} {s : Str} {i : Nat} (h : findChar c s = some i) :
    ∀ x ∈ s.take i, x ≠ c := by
  induction s generalizing i with
  | nil => simp
  | cons x xs ih =>
    by_cases hx : x = c
    · simp only [findChar, if_pos hx, Option.some.injEq] at h
      subst h
      simp
    · simp only [findChar, if_neg hx, Option.map_eq_some'] at h
      obtain ⟨j, hj, hij⟩ := h
      subst hij
      simp only [List.take_succ_cons, List.mem_cons]
      rintro y (rfl | hy)
      · exact hx
      · exact ih hj y hy

theorem take_append_cons {a b : Str} {c : Char} : (a ++ c :: b).take a.length = a :=
  List.take_left a (c :: b)

theorem drop_append_cons {a b : Str} {c : Char} : (a ++ c :: b).drop (a.length + 1) = b := by
  have : a ++ c :: b = (a ++ [c]) ++ b := by simp
  rw [this]
  have hl : (a ++ [c]).length = a.length + 1 := by simp
  rw [← hl]
  exact List.drop_left _ _

/-! ### Association-list (`dict`) lemmas -/

theorem dictGetQ_insert_self (ps : List (Str × Str)) (k v : Str) :
    dictGetQ (dictInsert ps k v) k = some v := by
  induction ps with
  | nil => simp [dictInsert, dictGetQ]
  | cons kv rest ih =>
    obtain ⟨k', v'⟩ := kv
    by_cases h : k' = k
    · simp [dictInsert, dictGetQ, h]
    · simp [dictInsert, dictGetQ, h, ih]

theorem dictInsert_of_not_mem {ps : List (Str × Str)} {k : Str} (v : Str)
    (h : k ∉ ps.map Prod.fst) : dictInsert ps k v = ps ++ [(k, v)] := by
  induction ps with
  | nil => rfl
  | cons kv rest ih =>
    obtain ⟨k', v'⟩ := kv
    simp only [List.map_cons, List.mem_cons] at h
    push_neg at h
    have hne : ¬ k' = k := fun he => h.1 he.symm
    simp only [dictInsert, if_neg hne, List.cons_append, List.cons.injEq, true_and]
    exact ih h.2

theorem dictInsert_map_fst (ps : List (Str × Str)) (k v : Str) :
    (dictInsert ps k v).map Prod.fst =
      if k ∈ ps.map Prod.fst then ps.map Prod.fst else ps.map Prod.fst ++ [k] := by
  induction ps with
  | nil => simp [dictInsert]
  | cons kv rest ih =>
    obtain ⟨k', v'⟩ := kv
    by_cases h : k' = k
    · simp [dictInsert, h]
    · simp only [dictInsert, if_neg h, List.map_cons, ih]
      by_cases hm : k ∈ rest.map Prod.fst
      · simp [hm, Ne.symm h]
      · simp [hm, Ne.symm h]

theorem dictInsert_nodup {ps : List (Str × Str)} {k v : Str}
    (h : (ps.map Prod.fst).Nodup) : ((dictInsert ps k v).map Prod.fst).Nodup := by
  rw [dictInsert_map_fst]
  by_cases hm : k ∈ ps.map Prod.fst
  · simpa [hm] using h
  · simp only [if_neg hm]
    simpa [List.nodup_append, hm] using h

theorem dictInsert_pres {P Q : Str → Prop} {ps : List (Str × Str)} {k v : Str}
    (hps : ∀ kv ∈ ps, P kv.1 ∧ Q kv.2) (hk : P k) (hv : Q v) :
    ∀ kv ∈ dictInsert ps k v, P kv.1 ∧ Q kv.2 := by
  induction ps with
  | nil =>
    simp only [dictInsert, List.mem_singleton]
    rintro kv rfl
    exact ⟨hk, hv⟩
  | cons kv0 rest ih =>
    obtain ⟨k', v'⟩ := kv0
    by_cases h : k' = k
    · simp only [dictInsert, if_pos h, List.mem_cons]
      intro kv hkv
      rcases hkv with heq | hkv2
      · subst heq
        exact ⟨(hps (k', v') (by simp)).1, hv⟩
      · exact hps kv (by simp [hkv2])
    · simp only [dictInsert, if_neg h, List.mem_cons]
      intro kv hkv
      rcases hkv with heq | hkv2
      · subst heq
        exact hps _ (by simp)
      · exact ih (fun kv' hkv' => hps kv' (by simp [hkv'])) kv hkv2

theorem dictErase_sublist (ps : List (Str × Str)) (k : Str) : (dictErase ps k).Sublist ps := by
  induction ps with
  | nil => simp [dictErase]
  | cons kv rest ih =>
    obtain ⟨k', v'⟩ := kv
    by_cases h : k' = k
    · simp only [dictErase, if_pos h]
      exact List.sublist_cons_self _ _
    · simp only [dictErase, if_neg h]
      exact ih.cons₂ _

theorem dictErase_of_not_mem {ps : List (Str × Str)} {k : Str}
    (h : k ∉ ps.map Prod.fst) : dictErase ps k = ps := by
  induction ps with
  | nil => rfl
  | cons kv rest ih =>
    obtain ⟨k', v'⟩ := kv
    simp only [List.map_cons, List.mem_cons] at h
    push_neg at h
    have hne : ¬ k' = k := fun he => h.1 he.symm
    simp only [dictErase, if_neg hne, List.cons.injEq, true_and]
    exact ih h.2

theorem not_mem_dictErase_map_fst {ps : List (Str × Str)} {k : Str}
    (h : (ps.map Prod.fst).Nodup) : k ∉ (dictErase ps k).map Prod.fst := by
  induction ps with
  | nil => simp [dictErase]
  | cons kv rest ih =>
    obtain ⟨k', v'⟩ := kv
    simp only [List.map_cons, List.nodup_cons] at h
    by_cases hk : k' = k
    · simp only [dictErase, if_pos hk]
      rw [← hk]
      exact h.1
    · simp only [dictErase, if_neg hk, List.map_cons, List.mem_cons]
      push_neg
      exact ⟨Ne.symm hk, ih h.2⟩

theorem dictGetQ_eq_none_iff {ps : List (Str × Str)} {k : Str} :
    dictGetQ ps k = none ↔ k ∉ ps.map Prod.fst := by
  induction ps with
  | nil => simp [dictGetQ]
  | cons kv rest ih =>
    obtain ⟨k', v'⟩ := kv
    by_cases h : k' = k
    · simp [dictGetQ, h]
    · simp [dictGetQ, h, ih, Ne.symm h]

/-! ### Serialization: structure of `pqsStr` -/

theorem pqsStr_foldl_acc (ps : List (Str × Str)) (acc : Str) :
    ps.foldl (fun a kv => a ++ kv.1 ++ '=' :: to_str kv.2 ++ ['&']) acc =
      acc ++ ps.foldl (fun a kv => a ++ kv.1 ++ '=' :: to_str kv.2 ++ ['&']) [] := by
  induction ps generalizing acc with
  | nil => simp
  | cons kv rest ih =>
    simp only [List.foldl_cons]
    rw [ih, ih (([] : Str) ++ kv.1 ++ '=' :: to_str kv.2 ++ ['&'])]
    simp

theorem pqsStr_foldl_ne_nil {ps : List (Str × Str)} (h : ps ≠ []) :
    ps.foldl (fun a kv => a ++ kv.1 ++ '=' :: to_str kv.2 ++ ['&']) [] ≠ [] := by
  cases ps with
  | nil => exact absurd rfl h
  | cons kv rest =>
    simp only [List.foldl_cons]
    rw [pqsStr_foldl_acc]
    simp

theorem pqsStr_nil : pqsStr [] = [] := rfl

theorem pqsStr_cons (kv : Str × Str) (rest : List (Str × Str)) :
    pqsStr (kv :: rest) =
      kv.1 ++ '=' :: kv.2 ++ (if rest = [] then [] else '&' :: pqsStr rest) := by
  unfold pqsStr
  simp only [List.foldl_cons]
  rw [pqsStr_foldl_acc]
  set J := rest.foldl (fun a kv => a ++ kv.1 ++ '=' :: to_str kv.2 ++ ['&']) [] with hJ
  clear_value J
  have hsplit : (([] : Str) ++ kv.1 ++ '=' :: to_str kv.2 ++ ['&']) ++ J
      = (kv.1 ++ '=' :: kv.2) ++ ('&' :: J) := by simp [to_str]
  rw [hsplit]
  by_cases h : rest = []
  · subst h
    have hJnil : J = [] := by rw [hJ]; rfl
    rw [hJnil]
    rw [if_pos (show ((kv.1 ++ '=' :: kv.2) ++ '&' :: ([] : Str)) ≠ [] by simp)]
    rw [List.dropLast_concat]
    simp
  · have hne : J ≠ [] := by rw [hJ]; exact pqsStr_foldl_ne_nil h
    rw [if_pos (show ((kv.1 ++ '=' :: kv.2) ++ '&' :: J) ≠ [] by simp), if_neg h, if_pos hne]
    rw [List.dropLast_append_of_ne_nil _ (show ('&' :: J) ≠ [] by simp)]
    have hd : ('&' :: J).dropLast = '&' :: J.dropLast := by
      cases J with
      | nil => exact absurd rfl hne
      | cons a as => rfl
    rw [hd]

theorem mem_pqsStr {ps : List (Str × Str)} {c : Char} (h : c ∈ pqsStr ps) :
    (∃ kv ∈ ps, c ∈ kv.1 ∨ c ∈ kv.2) ∨ c = '=' ∨ c = '&' := by
  induction ps with
  | nil => simp [pqsStr_nil] at h
  | cons kv rest ih =>
    rw [pqsStr_cons] at h
    rcases List.mem_append.mp h with h2 | h4
    · rcases List.mem_append.mp h2 with hk | h3
      · exact Or.inl ⟨kv, by simp, Or.inl hk⟩
      rcases List.mem_cons.mp h3 with rfl | hv
      · exact Or.inr (Or.inl rfl)
      · exact Or.inl ⟨kv, by simp, Or.inr hv⟩
    by_cases hr : rest = []
    · rw [if_pos hr] at h4
      simp at h4
    · rw [if_neg hr] at h4
      rcases List.mem_cons.mp h4 with rfl | h5
      · exact Or.inr (Or.inr rfl)
      · rcases ih h5 with ⟨kv', hkv', hc⟩ | hc
        · exact Or.inl ⟨kv', by simp [hkv'], hc⟩
        · exact Or.inr hc

theorem pqsStr_no_space {ps : List (Str × Str)} (h : paramsClean ps) :
    ∀ c ∈ pqsStr ps, pyIsSpace c = false := by
  intro c hc
  rcases mem_pqsStr hc with ⟨kv, hkv, hm⟩ | (rfl | rfl)
  · rcases hm with hm | hm
    · exact ((h.1 kv hkv).1.2 c hm).2.2.1
    · exact ((h.1 kv hkv).2 c hm).2
  · decide
  · decide

theorem pqsStrip_pqsStr {ps : List (Str × Str)} (h : paramsClean ps) :
    pqsStrip (pqsStr ps) = pqsStr ps := by
  unfold pqsStrip
  rw [pyStrip_eq_self (pqsStr_no_space h)]
  cases ps with
  | nil => rfl
  | cons kv rest =>
    have hk := (h.1 kv (by simp)).1
    obtain ⟨hne, hcl⟩ := hk
    cases hkv : kv.1 with
    | nil => exact absurd hkv hne
    | cons k0 ks =>
      have hq : k0 ≠ '?' := by
        have := hcl k0 (by rw [hkv]; simp)
        exact this.2.2.2
      have hform : pqsStr (kv :: rest) = k0 :: (ks ++ '=' :: kv.2 ++
          (if rest = [] then [] else '&' :: pqsStr rest)) := by
        rw [pqsStr_cons, hkv]
        simp
      rw [hform]
      have hpq : chars "?" = ['?'] := rfl
      rw [hpq]
      simp [isPrefixB, Ne.symm hq]

theorem splitChar_pqsStr {ps : List (Str × Str)} (h : paramsClean ps) (hne : ps ≠ []) :
    splitChar '&' (pqsStr ps) = ps.map (fun kv => kv.1 ++ '=' :: kv.2) := by
  induction ps with
  | nil => exact absurd rfl hne
  | cons kv rest ih =>
    have hkv := h.1 kv (by simp)
    have hna : ∀ x ∈ kv.1 ++ '=' :: kv.2, x ≠ '&' := by
      intro x hx
      rcases List.mem_append.mp hx with hx | hx
      · exact (hkv.1.2 x hx).1
      · rcases List.mem_cons.mp hx with rfl | hx
        · decide
        · exact (hkv.2 x hx).1
    rw [pqsStr_cons]
    by_cases hr : rest = []
    · subst hr
      rw [if_pos rfl]
      have : kv.1 ++ '=' :: kv.2 ++ [] = kv.1 ++ '=' :: kv.2 := by simp
      rw [this, splitChar_eq_single hna]
      simp
    · rw [if_neg hr]
      have hassoc : kv.1 ++ '=' :: kv.2 ++ '&' :: pqsStr rest =
          (kv.1 ++ '=' :: kv.2) ++ '&' :: pqsStr rest := by simp
      rw [hassoc, splitChar_append_cons hna]
      have hclean : paramsClean rest := by
        refine ⟨fun kv' hkv' => h.1 kv' (by simp [hkv']), ?_⟩
        have := h.2
        simp only [List.map_cons, List.nodup_cons] at this
        exact this.2
      rw [ih hclean hr]
      simp

theorem addToken_piece {ps : List (Str × Str)} {k v : Str} (hk : keyClean k) :
    addToken ps (k ++ '=' :: v) = dictInsert ps k v := by
  unfold addToken
  have hf : findChar '=' (k ++ '=' :: v) = some k.length :=
    findChar_append (fun x hx => (hk.2 x hx).2.1)
  simp only [to_str]
  rw [hf]
  simp only [take_append_cons, drop_append_cons]
  rw [if_pos hk.1]

theorem foldl_addToken_pieces (ps : List (Str × Str)) :
    ∀ acc, (∀ kv ∈ ps, keyClean kv.1) → (ps.map Prod.fst).Nodup →
      (∀ kv ∈ ps, kv.1 ∉ acc.map Prod.fst) →
      (ps.map (fun kv => kv.1 ++ '=' :: kv.2)).foldl addToken acc = acc ++ ps := by
  induction ps with
  | nil => intro acc _ _ _; simp
  | cons kv rest ih =>
    intro acc hkeys hnd hdisj
    simp only [List.map_cons, List.foldl_cons]
    rw [addToken_piece (hkeys kv (by simp))]
    rw [dictInsert_of_not_mem kv.2 (hdisj kv (by simp))]
    have hnd' : (rest.map Prod.fst).Nodup := by
      simp only [List.map_cons, List.nodup_cons] at hnd
      exact hnd.2
    have hhd : kv.1 ∉ rest.map Prod.fst := by
      simp only [List.map_cons, List.nodup_cons] at hnd
      exact hnd.1
    rw [ih (acc ++ [(kv.1, kv.2)]) (fun kv' h' => hkeys kv' (by simp [h'])) hnd' ?_]
    · simp
    · intro kv' h'
      simp only [List.map_append, List.mem_append]
      push_neg
      constructor
      · exact hdisj kv' (by simp [h'])
      · simp only [List.map_cons, List.map_nil, List.mem_singleton]
        intro he
        apply hhd
        rw [← he]
        exact List.mem_map_of_mem Prod.fst h'

theorem parseParams_pqsStr {ps : List (Str × Str)} (h : paramsClean ps) :
    parseParams (pqsStr ps) = ps := by
  cases hps : ps with
  | nil => rfl
  | cons kv rest =>
    rw [← hps]
    unfold parseParams
    rw [pqsStrip_pqsStr h, splitChar_pqsStr h (by rw [hps]; simp)]
    exact foldl_addToken_pieces ps [] (fun kv' h' => (h.1 kv' h').1) h.2 (by simp)

theorem addToken_clean {ps : List (Str × Str)} {t : Str}
    (ht : ∀ c ∈ t, c ≠ '&' ∧ pyIsSpace c = false ∧ c ≠ '?')
    (h : paramsClean ps) : paramsClean (addToken ps t) := by
  unfold addToken
  simp only [to_str]
  cases hf : findChar '=' t with
  | some pos =>
    show paramsClean (if t.take pos ≠ [] then
      dictInsert ps (t.take pos) (t.drop (pos + 1)) else ps)
    by_cases hk : t.take pos ≠ []
    · rw [if_pos hk]
      have hkeyC : keyClean (t.take pos) := by
        refine ⟨hk, fun c hc => ?_⟩
        have hmem : c ∈ t := (List.take_sublist pos t).mem hc
        exact ⟨(ht c hmem).1, findChar_take hf c hc, (ht c hmem).2.1, (ht c hmem).2.2⟩
      have hvalC : valClean (t.drop (pos + 1)) := by
        intro c hc
        have hmem : c ∈ t := (List.drop_sublist (pos + 1) t).mem hc
        exact ⟨(ht c hmem).1, (ht c hmem).2.1⟩
      exact ⟨dictInsert_pres h.1 hkeyC hvalC, dictInsert_nodup h.2⟩
    · rw [if_neg hk]
      exact h
  | none =>
    show paramsClean (if t ≠ [] then dictInsert ps t [] else ps)
    by_cases hk : t ≠ []
    · rw [if_pos hk]
      have hkeyC : keyClean t := by
        refine ⟨hk, fun c hc => ?_⟩
        exact ⟨(ht c hc).1, findChar_eq_none_iff.mp hf c hc, (ht c hc).2.1, (ht c hc).2.2⟩
      have hvalC : valClean ([] : Str) := by intro c hc; simp at hc
      exact ⟨dictInsert_pres h.1 hkeyC hvalC, dictInsert_nodup h.2⟩
    · rw [if_neg hk]
      exact h

theorem foldl_addToken_clean (ts : List Str) :
    ∀ acc, (∀ t ∈ ts, ∀ c ∈ t, c ≠ '&' ∧ pyIsSpace c = false ∧ c ≠ '?') →
      paramsClean acc → paramsClean (ts.foldl addToken acc) := by
  induction ts with
  | nil => intro acc _ h; exact h
  | cons t rest ih =>
    intro acc hts h
    simp only [List.foldl_cons]
    exact ih _ (fun t' h' => hts t' (by simp [h'])) (addToken_clean (hts t (by simp)) h)

theorem parseParams_clean {q : Str} (h : qsClean q) : paramsClean (parseParams q) := by
  unfold parseParams
  refine foldl_addToken_clean _ [] (fun t ht c hc => ?_) ⟨by simp, by simp⟩
  have hq : c ∈ q := mem_pqsStrip (mem_splitChar_mem ht c hc)
  exact ⟨mem_splitChar_not_sep ht c hc, (h c hq).1, (h c hq).2⟩

theorem paramsClean_dictInsert {ps : List (Str × Str)} {k v : Str}
    (h : paramsClean ps) (hk : keyClean k) (hv : valClean v) :
    paramsClean (dictInsert ps k v) :=
  ⟨dictInsert_pres h.1 hk hv, dictInsert_nodup h.2⟩

theorem paramsClean_dictErase {ps : List (Str × Str)} {k : Str}
    (h : paramsClean ps) : paramsClean (dictErase ps k) := by
  refine ⟨fun kv hkv => h.1 kv ((dictErase_sublist ps k).mem hkv), ?_⟩
  exact List.Nodup.sublist ((dictErase_sublist ps k).map Prod.fst) h.2

/-! ### ParsedUrl constructor: stage lemmas -/

theorem applyDefaultScheme_id {ds : Str} {p : SplitResult} (h : p.scheme ≠ []) :
    applyDefaultScheme ds p = p := by
  unfold applyDefaultScheme
  rw [if_neg]
  rintro ⟨-, h2, -⟩
  exact h h2

theorem applyDefaultNetloc_id {dn : Str} {p : SplitResult} (h : ¬ hierScheme p.scheme) :
    applyDefaultNetloc dn p = p := by
  unfold applyDefaultNetloc
  rw [if_neg]
  rintro ⟨-, -, h3⟩
  exact h h3

theorem applyDefaultNetloc_nil {p : SplitResult} : applyDefaultNetloc [] p = p := by
  unfold applyDefaultNetloc
  rw [if_neg]
  rintro ⟨h1, -, -⟩
  exact h1 rfl

theorem applyDefaultFilepath_id {df : Str} {sym : Bool} {p : SplitResult}
    (h : ¬ hierScheme p.scheme) : applyDefaultFilepath df sym p = p := by
  unfold applyDefaultFilepath
  rw [if_neg]
  rintro ⟨-, -, h3⟩
  exact h h3

theorem applyDefaultFilepath_nil {sym : Bool} {p : SplitResult} :
    applyDefaultFilepath [] sym p = p := by
  unfold applyDefaultFilepath
  rw [if_neg]
  rintro ⟨h1, -, -⟩
  exact h1 rfl

theorem dropBareScheme_id {p : SplitResult}
    (h : ¬ (p.scheme = chars "http" ∨ p.scheme = chars "https")) : dropBareScheme p = p := by
  unfold dropBareScheme
  rw [if_neg]
  rintro ⟨-, -, h3⟩
  exact h h3

theorem dropBareScheme_no_bare (p : SplitResult) :
    ¬ ((dropBareScheme p).netloc = [] ∧
       ((dropBareScheme p).scheme = chars "http" ∨ (dropBareScheme p).scheme = chars "https")) := by
  unfold dropBareScheme
  by_cases hc : p.netloc = [] ∧ p.scheme ≠ [] ∧ (p.scheme = chars "http" ∨ p.scheme = chars "https")
  · rw [if_pos hc]
    rintro ⟨-, h2 | h2⟩
    · exact (show ([] : Str) ≠ chars "http" by decide) h2
    · exact (show ([] : Str) ≠ chars "https" by decide) h2
  · rw [if_neg hc]
    rintro ⟨h1, h2⟩
    apply hc
    refine ⟨h1, ?_, h2⟩
    rcases h2 with h2 | h2 <;> rw [h2] <;> decide

theorem schemeSplit_ne_nil {url : Str} {pr : Str × Str} (h : schemeSplit url = some pr) :
    pr.1 ≠ [] := by
  unfold schemeSplit at h
  cases hf : findChar ':' url with
  | none =>
    rw [hf] at h
    exact Option.noConfusion h
  | some i =>
    rw [hf] at h
    have h' : (if 0 < i ∧ isAsciiAlpha (url.headD '0') = true ∧
        (url.take i).all isSchemeChar = true then
        some ((url.take i).map asciiLower, url.drop (i + 1)) else none) = some pr := h
    by_cases hc : 0 < i ∧ isAsciiAlpha (url.headD '0') = true ∧ (url.take i).all isSchemeChar = true
    · rw [if_pos hc] at h'
      injection h' with h'
      subst h'
      intro hnil
      have hlen := findChar_lt_length hf
      have hlnil := congrArg List.length hnil
      simp only [List.length_map, List.length_take, List.length_nil] at hlnil
      omega
    · rw [if_neg hc] at h'
      exact Option.noConfusion h' 

/-- With an empty-scheme parse, the default scheme only lands in the scheme
field; every other component of the split is unchanged. -/
theorem urlsplit_default {url ds : Str} {af : Bool}
    (h : (urlsplit url [] af).scheme = []) :
    urlsplit url ds af = { urlsplit url [] af with scheme := schemeClean ds } := by
  cases hs : schemeSplit (wsCleanUrl url) with
  | some pr =>
    exfalso
    have hsch : (urlsplit url [] af).scheme = pr.1 := by
      simp only [urlsplit]
      rw [hs]
    rw [hsch] at h
    exact schemeSplit_ne_nil hs h
  | none =>
    simp only [urlsplit]
    rw [hs]

/-! ### Claim C9 -/

/-- C9 (amended): `ParsedUrl` construction succeeds if and only if the
whitespace-stripped url is nonempty (an empty or absent url is the
`InvalidInput` failure) and the parsed authority does not have unbalanced
square brackets (the `urlsplit` "Invalid IPv6 URL" failure); no other input
makes construction raise (within the model's scope; see the header note on
newer interpreters' extra host validation). -/
theorem urls_C9_construction_failure (url dn ds df : Str) (af sym : Bool) :
    (∃ r, parsedUrlInit url dn ds df af sym = .ok r) ↔
      (url_filter url ≠ [] ∧
       invalidIpv6 (urlsplit (url_filter url) ds af).netloc = false) := by
  simp only [parsedUrlInit]
  by_cases h1 : url_filter url = []
  · rw [if_pos h1]
    simp [h1]
  · rw [if_neg h1]
    by_cases h2 : invalidIpv6 (urlsplit (url_filter url) ds af).netloc = true
    · rw [if_pos h2]
      simp [h1, h2]
    · rw [if_neg h2]
      simp only [Bool.not_eq_true] at h2
      simp [h1, h2]

/-- C9 counterexample: a nonempty input on which construction still fails —
an authority with `[` but no `]` raises "Invalid IPv6 URL", refuting
"for every non-empty stripped input, construction succeeds". -/
theorem urls_C9_counterexample :
    url_filter (chars "http://[x") ≠ [] ∧
    parsedUrlInit (chars "http://[x") [] [] [] true false = .error .invalidIpv6Url := by
  exact ⟨by decide, rfl⟩

/-! ### Claim C2 -/

/-- C2 (amended): for every input whose parsed scheme is non-hierarchical
(not one of `http`, `https`, or empty), construction bypasses netloc and
filepath defaulting entirely: the constructed value is exactly the raw
`urlsplit` of the stripped input, so the rendered url is that parse's
re-serialization (equal to the original reference whenever parse/unparse is
lossless on it); in particular the `mailto` example keeps scheme `mailto`
and renders the input unchanged. -/
theorem urls_C2_nonhier_bypass :
    (∀ (url dn ds df : Str) (af sym : Bool),
      url_filter url ≠ [] →
      ¬ hierScheme (urlsplit (url_filter url) ds af).scheme →
      invalidIpv6 (urlsplit (url_filter url) ds af).netloc = false →
      parsedUrlInit url dn ds df af sym = .ok (urlsplit (url_filter url) ds af)) ∧
    (parsedUrlInit (chars "mailto:me@mail.com?subject=s&body=b") (chars "localhost:8000")
        (chars "http") (chars "/x/") true false).map SplitResult.scheme =
      .ok (chars "mailto") ∧
    (parsedUrlInit (chars "mailto:me@mail.com?subject=s&body=b") (chars "localhost:8000")
        (chars "http") (chars "/x/") true false).map urlunsplit =
      .ok (chars "mailto:me@mail.com?subject=s&body=b") := by
  refine ⟨?_, rfl, rfl⟩
  intro url dn ds df af sym hne hnh hip
  have hs : (urlsplit (url_filter url) ds af).scheme ≠ [] := by
    intro h0
    exact hnh (Or.inr (Or.inr h0))
  simp only [parsedUrlInit]
  rw [if_neg hne, hip]
  rw [if_neg (by simp)]
  rw [applyDefaultScheme_id hs, applyDefaultNetloc_id hnh, applyDefaultFilepath_id hnh,
    dropBareScheme_id ?_]
  intro hc
  apply hnh
  rcases hc with hc | hc
  · exact Or.inl hc
  · exact Or.inr (Or.inl hc)

/-- C2 witness: the mailto example satisfies the general theorem's
hypotheses. -/
theorem urls_C2_witness :
    parsedUrlInit (chars "mailto:me@mail.com?subject=s&body=b") (chars "localhost:8000")
        (chars "http") (chars "/x/") true false =
      .ok (urlsplit (url_filter (chars "mailto:me@mail.com?subject=s&body=b"))
        (chars "http") true) :=
  urls_C2_nonhier_bypass.1 (chars "mailto:me@mail.com?subject=s&body=b")
    (chars "localhost:8000") (chars "http") (chars "/x/") true false
    (by decide) (by decide) (by decide)

/-- C2 counterexample: `tel:?` has a non-hierarchical parsed scheme but the
rendered url is `tel:`, not the stripped input — the "rendered url equals
the original reference unmodified except for the initial whitespace strip"
part of the claim is false as stated. -/
theorem urls_C2_counterexample :
    (parsedUrlInit (chars "tel:?") (chars "localhost:8000") (chars "http") (chars "/x/")
      true false).map SplitResult.scheme = .ok (chars "tel") ∧
    (parsedUrlInit (chars "tel:?") (chars "localhost:8000") (chars "http") (chars "/x/")
      true false).map urlunsplit = .ok (chars "tel:") ∧
    url_filter (chars "tel:?") = chars "tel:?" ∧
    chars "tel:" ≠ chars "tel:?" := by
  refine ⟨rfl, rfl, rfl, by decide⟩

/-! ### Claim C3 -/

/-- C3 (amended): after construction the invariant holds that an `http` or
`https` scheme never remains alongside an empty authority (the final
correction clears it); and for every relative input with no scheme and no
authority whose parse re-serializes losslessly, construction with only an
`http`/`https` `default_scheme` given yields a path-relative url equal to
the whitespace-stripped input, with no scheme. -/
theorem urls_C3_scheme_cleared :
    (∀ (url dn ds df : Str) (af sym : Bool) (r : SplitResult),
      parsedUrlInit url dn ds df af sym = .ok r →
      ¬ (r.netloc = [] ∧ (r.scheme = chars "http" ∨ r.scheme = chars "https"))) ∧
    (∀ url ds : Str,
      (ds = chars "http" ∨ ds = chars "https") →
      url_filter url ≠ [] →
      (urlsplit (url_filter url) [] true).scheme = [] →
      (urlsplit (url_filter url) [] true).netloc = [] →
      urlunsplit (urlsplit (url_filter url) [] true) = url_filter url →
      ∃ r, parsedUrlInit url [] ds [] true false = .ok r ∧ r.scheme = [] ∧
        urlunsplit r = url_filter url) := by
  constructor
  · intro url dn ds df af sym r h
    simp only [parsedUrlInit] at h
    by_cases h1 : url_filter url = []
    · rw [if_pos h1] at h
      exact Except.noConfusion h
    · rw [if_neg h1] at h
      by_cases h2 : invalidIpv6 (urlsplit (url_filter url) ds af).netloc = true
      · rw [if_pos h2] at h
        exact Except.noConfusion h
      · rw [if_neg h2] at h
        injection h with h
        rw [← h]
        exact dropBareScheme_no_bare _
  · intro url ds hds hne hsch hnl hrt
    have hdsC : schemeClean ds = ds := by
      rcases hds with rfl | rfl <;> decide
    have hdsne : ds ≠ [] := by
      rcases hds with rfl | rfl <;> decide
    have hsplit := @urlsplit_default (url_filter url) ds true hsch
    refine ⟨urlsplit (url_filter url) [] true, ?_, hsch, hrt⟩
    simp only [parsedUrlInit]
    rw [if_neg hne, hsplit, hdsC]
    have hnl2 : ({ urlsplit (url_filter url) [] true with scheme := ds } : SplitResult).netloc
        = [] := hnl
    rw [show invalidIpv6 ({ urlsplit (url_filter url) [] true with scheme := ds } :
        SplitResult).netloc = false by rw [hnl2]; decide]
    rw [if_neg (by simp)]
    rw [applyDefaultScheme_id (by simpa using hdsne), applyDefaultNetloc_nil,
      applyDefaultFilepath_nil]
    unfold dropBareScheme
    rw [if_pos ⟨hnl2, by simpa using hdsne, by simpa using hds⟩]
    congr 1
    cases hu : urlsplit (url_filter url) [] true
    simp only [Except.ok.injEq]
    rw [hu] at hsch
    simp at hsch
    simp [hsch]

/-- C3 witness: a plain relative file name with `default_scheme="http"`. -/
theorem urls_C3_witness :
    ∃ r, parsedUrlInit (chars "page.html") [] (chars "http") [] true false = .ok r ∧
      r.scheme = [] ∧ urlunsplit r = url_filter (chars "page.html") :=
  urls_C3_scheme_cleared.2 (chars "page.html") (chars "http") (Or.inl rfl)
    (by decide) (by decide) (by decide) (by decide)

/-- C3 counterexample: the relative, authority-free input `x?` renders as `x`
after construction with `default_scheme="http"` — not equal to the
whitespace-stripped input, refuting the claim's "yields a url equal to the
(whitespace-stripped) input" as stated. -/
theorem urls_C3_counterexample :
    (urlsplit (url_filter (chars "x?")) [] true).scheme = [] ∧
    (urlsplit (url_filter (chars "x?")) [] true).netloc = [] ∧
    (parsedUrlInit (chars "x?") [] (chars "http") [] true false).map urlunsplit =
      .ok (chars "x") ∧
    url_filter (chars "x?") = chars "x?" ∧
    chars "x" ≠ chars "x?" := by
  refine ⟨rfl, rfl, rfl, rfl, by decide⟩

/-! ### Claim C1 -/

/-- C1: with `default_scheme="http"`, `default_netloc="localhost:8000"`,
`default_filepath="/blog"` and `symlinks` false, a leading `.` or `..`
segment resolves relative to the default filepath with `..` collapsed, and
the trailing slash is preserved: `./products/` renders
`http://localhost:8000/blog/products/` and `../products/` renders
`http://localhost:8000/products/`. -/
theorem urls_C1_default_filepath_join :
    (parsedUrlInit (chars "./products/") (chars "localhost:8000") (chars "http")
      (chars "/blog") true false).map urlunsplit =
      .ok (chars "http://localhost:8000/blog/products/") ∧
    (parsedUrlInit (chars "../products/") (chars "localhost:8000") (chars "http")
      (chars "/blog") true false).map urlunsplit =
      .ok (chars "http://localhost:8000/products/") := by
  exact ⟨rfl, rfl⟩

/-! ### Claim C4 -/

/-- C4: the claim says `from_dict` leaves a field's current instance value
unchanged when its uppercased key is absent from the dictionary; the code
instead falls back to the class attribute value (`None`), wiping the field.
At the failing input `DjUrl(":pw").from_dict({"HOST": "h"})` the decoded
password `"pw"` is erased to `None` rather than kept. -/
theorem urls_C4_from_dict_resets :
    (djUrlDecode (chars ":pw")).password = some (.str (chars "pw")) ∧
    fromDict (djUrlDecode (chars ":pw")) [(chars "HOST", .str (chars "h"))] =
      ⟨none, none, none, some (.str (chars "h")), none, none⟩ := by
  exact ⟨rfl, rfl⟩

/-! ### Claim C10 -/

/-- C10: an all-absent `DjUrl` (from the empty — or absent, modelled the
same — packed string) renders exactly `"://@"`, and re-decoding that
rendering yields an all-absent instance again. -/
theorem urls_C10_empty_roundtrip :
    djUrlDecode (chars "") = ⟨none, none, none, none, none, none⟩ ∧
    djUrlStr (djUrlDecode (chars "")) = chars "://@" ∧
    djUrlDecode (djUrlStr (djUrlDecode (chars ""))) =
      ⟨none, none, none, none, none, none⟩ := by
  exact ⟨rfl, rfl, rfl⟩

/-! ### Claim C6 -/

/-- C6 (amended): `set_param` followed by `get_param` with the same key
returns the set value — and the key is inserted at the end if new,
overwritten in place if existing — provided the key is nonempty and free of
`&`, `=`, whitespace and `?`, the value is free of `&` and whitespace, and
the url's current query is free of whitespace and `?` (the re-parse strips
whitespace and a leading `?`, so such characters are not stable);
`del_param` followed by `get_param` returns the absent marker `None` under
the same query condition; and `del_param` of an absent key is a no-op on
the parameter mapping (the raw query string is re-serialized), not an
error. -/
theorem urls_C6_param_roundtrip :
    (∀ (r : SplitResult) (k v : Str), qsClean r.query → keyClean k → valClean v →
      parseParams (set_param r k v).query = dictInsert (parseParams r.query) k v ∧
      get_param (set_param r k v) k = some v) ∧
    (∀ (r : SplitResult) (k : Str), qsClean r.query →
      get_param (del_param r k) k = none) ∧
    (∀ (r : SplitResult) (k : Str), qsClean r.query → get_param r k = none →
      parseParams (del_param r k).query = parseParams r.query) := by
  refine ⟨?_, ?_, ?_⟩
  · intro r k v hq hk hv
    have hclean := parseParams_clean hq
    have hins := paramsClean_dictInsert hclean hk hv
    have hround : parseParams (set_param r k v).query =
        dictInsert (parseParams r.query) k v := by
      unfold set_param
      exact parseParams_pqsStr hins
    refine ⟨hround, ?_⟩
    unfold get_param
    rw [show (set_param r k v).query = pqsStr (dictInsert (parseParams r.query) k v) from rfl]
    rw [show parseParams (pqsStr (dictInsert (parseParams r.query) k v)) =
      dictInsert (parseParams r.query) k v from parseParams_pqsStr hins]
    exact dictGetQ_insert_self _ _ _
  · intro r k hq
    have hclean := parseParams_clean hq
    have hdel := @paramsClean_dictErase (parseParams r.query) k hclean
    unfold get_param del_param
    rw [show parseParams (pqsStr (dictErase (parseParams r.query) k)) =
      dictErase (parseParams r.query) k from parseParams_pqsStr hdel]
    exact dictGetQ_eq_none_iff.mpr (not_mem_dictErase_map_fst hclean.2)
  · intro r k hq habs
    have hclean := parseParams_clean hq
    unfold get_param at habs
    have hnotmem : k ∉ (parseParams r.query).map Prod.fst := dictGetQ_eq_none_iff.mp habs
    unfold del_param
    rw [show dictErase (parseParams r.query) k = parseParams r.query from
      dictErase_of_not_mem hnotmem]
    exact parseParams_pqsStr hclean

/-- C6 witness: set/get and del/get on a concrete query. -/
theorem urls_C6_witness :
    get_param (set_param ⟨[], [], [], chars "a=1", []⟩ (chars "k") (chars "2"))
      (chars "k") = some (chars "2") ∧
    get_param (del_param ⟨[], [], [], chars "a=1", []⟩ (chars "a")) (chars "a") = none := by
  constructor
  · exact (urls_C6_param_roundtrip.1 ⟨[], [], [], chars "a=1", []⟩ (chars "k") (chars "2")
      (by decide) (by decide) (by decide)).2
  · exact urls_C6_param_roundtrip.2.1 ⟨[], [], [], chars "a=1", []⟩ (chars "a") (by decide)

/-- C6 counterexample: with a value containing `&`, `set_param` then
`get_param` does not return the set value (the re-parse splits the value),
refuting the claim's "for every key and every value". -/
theorem urls_C6_counterexample :
    get_param (set_param ⟨[], [], [], [], []⟩ (chars "k") (chars "1&2")) (chars "k") =
      some (chars "1") ∧
    get_param (set_param ⟨[], [], [], [], []⟩ (chars "k") (chars "1&2")) (chars "k") ≠
      some (chars "1&2") := by
  exact ⟨rfl, by decide⟩

/-! ### Claim C7 -/

/-- C7: `ParsedQueryString` splitting is tolerant — a token with no `=`
becomes a key with empty value, an empty token is skipped, a token is split
only on its first `=` so the value may keep further `=` characters — and
`str(ParsedQueryString("id=1&b=2&x=1234=56&z=3"))` is the same string. -/
theorem urls_C7_tolerant_split :
    (∀ (ps : List (Str × Str)) (t : Str), (∀ c ∈ t, c ≠ '=') → t ≠ [] →
      addToken ps t = dictInsert ps t []) ∧
    (∀ ps : List (Str × Str), addToken ps [] = ps) ∧
    (∀ (ps : List (Str × Str)) (k v : Str), (∀ c ∈ k, c ≠ '=') → k ≠ [] →
      addToken ps (k ++ '=' :: v) = dictInsert ps k v) ∧
    pqsStr (parseParams (chars "id=1&b=2&x=1234=56&z=3")) =
      chars "id=1&b=2&x=1234=56&z=3" := by
  refine ⟨?_, fun ps => rfl, ?_, rfl⟩
  · intro ps t hno hne
    unfold addToken
    simp only [to_str]
    rw [findChar_eq_none_iff.mpr hno]
    rw [if_pos hne]
  · intro ps k v hno hne
    unfold addToken
    simp only [to_str]
    rw [findChar_append hno]
    simp only [take_append_cons, drop_append_cons]
    rw [if_pos hne]

/-- C7 witness: the three general parts instantiated at concrete tokens. -/
theorem urls_C7_witness :
    addToken [] (chars "flag") = dictInsert [] (chars "flag") [] ∧
    addToken [(chars "a", chars "1")] [] = [(chars "a", chars "1")] ∧
    addToken [] (chars "x" ++ '=' :: chars "1=2") = dictInsert [] (chars "x") (chars "1=2") := by
  refine ⟨?_, ?_, ?_⟩
  · exact urls_C7_tolerant_split.1 [] (chars "flag") (by decide) (by decide)
  · exact urls_C7_tolerant_split.2.1 [(chars "a", chars "1")]
  · exact urls_C7_tolerant_split.2.2.1 [] (chars "x") (chars "1=2") (by decide) (by decide)

/-! ### Claim C5: the `domain` setter -/

theorem digitChar_isDigit {d : Nat} (h : d < 10) : (digitChar d).isDigit = true := by
  interval_cases d <;> decide

theorem digitChar_val {d : Nat} (h : d < 10) : (digitChar d).toNat - 48 = d := by
  interval_cases d <;> decide

theorem natReprF_spec :
    ∀ fuel n : Nat, n < 10 ^ (fuel + 1) →
      (∀ c ∈ natReprF fuel n, c.isDigit = true) ∧ natReprF fuel n ≠ [] ∧
      (natReprF fuel n).foldl (fun a c => a * 10 + (c.toNat - 48)) 0 = n := by
  intro fuel
  induction fuel with
  | zero =>
    intro n hn
    have h10 : n < 10 := by simpa using hn
    have hmod : n % 10 = n := Nat.mod_eq_of_lt h10
    refine ⟨?_, by simp [natReprF], ?_⟩
    · intro c hc
      simp only [natReprF, List.mem_singleton] at hc
      subst hc
      rw [hmod]
      exact digitChar_isDigit h10
    · simp only [natReprF, List.foldl_cons, List.foldl_nil, Nat.zero_mul, Nat.zero_add]
      rw [hmod, digitChar_val h10]
  | succ fuel ih =>
    intro n hn
    by_cases h10 : n < 10
    · have hmod : n % 10 = n := Nat.mod_eq_of_lt h10
      refine ⟨?_, by simp [natReprF, h10], ?_⟩
      · intro c hc
        simp only [natReprF, if_pos h10, List.mem_singleton] at hc
        subst hc
        exact digitChar_isDigit h10
      · simp only [natReprF, if_pos h10, List.foldl_cons, List.foldl_nil, Nat.zero_mul,
          Nat.zero_add]
        rw [digitChar_val h10]
    · have hdiv : n / 10 < 10 ^ (fuel + 1) := by
        rw [Nat.div_lt_iff_lt_mul (by omega)]
        calc n < 10 ^ (fuel + 1 + 1) := hn
        _ = 10 ^ (fuel + 1) * 10 := by ring
      obtain ⟨hd1, hd2, hd3⟩ := ih (n / 10) hdiv
      have hm10 : n % 10 < 10 := Nat.mod_lt n (by omega)
      refine ⟨?_, by simp [natReprF, h10], ?_⟩
      · intro c hc
        simp only [natReprF, if_neg h10] at hc
        rcases List.mem_append.mp hc with hc | hc
        · exact hd1 c hc
        · simp only [List.mem_singleton] at hc
          subst hc
          exact digitChar_isDigit hm10
      · simp only [natReprF, if_neg h10]
        rw [List.foldl_append]
        simp only [List.foldl_cons, List.foldl_nil]
        rw [hd3, digitChar_val hm10]
        omega

theorem natRepr_spec (n : Nat) :
    (∀ c ∈ natRepr n, c.isDigit = true) ∧ natRepr n ≠ [] ∧
      digitsToNat? (natRepr n) = some n := by
  have hlt : n < 10 ^ (n + 1) := by
    calc n < 10 ^ n := Nat.lt_pow_self (by omega) n
    _ ≤ 10 ^ (n + 1) := Nat.pow_le_pow_right (by omega) (by omega)
  obtain ⟨h1, h2, h3⟩ := natReprF_spec n n hlt
  refine ⟨h1, h2, ?_⟩
  unfold digitsToNat?
  rw [if_pos ⟨h2, List.all_eq_true.mpr h1⟩]
  rw [show natRepr n = natReprF n n from rfl, h3]

theorem isDigit_ne {c : Char} (h : c.isDigit = true) :
    c ≠ ':' ∧ c ≠ '@' ∧ c ≠ '[' := by
  refine ⟨?_, ?_, ?_⟩ <;> rintro rfl <;> exact absurd h (by decide)

theorem afterLastAt_eq_self {s : Str} (h : ∀ x ∈ s, x ≠ '@') : afterLastAt s = s := by
  unfold afterLastAt
  have : s.reverse.takeWhile (· ≠ '@') = s.reverse :=
    List.takeWhile_eq_self_iff.mpr
      (fun x hx => decide_eq_true (h x (List.mem_reverse.mp hx)))
  rw [this, List.reverse_reverse]

theorem partitionAfter_append {value d : Str} {c : Char} (h : ∀ x ∈ value, x ≠ c) :
    partitionAfter c (value ++ c :: d) = d := by
  have hf : findChar c (value ++ c :: d) = some value.length := findChar_append h
  unfold partitionAfter
  rw [hf]
  exact drop_append_cons

theorem splitResultPort_le {nl : Str} {p : Nat} (h : splitResultPort nl = some p) :
    p ≤ 65535 := by
  unfold splitResultPort at h
  by_cases h1 : hostinfoPortStr nl = []
  · rw [if_pos h1] at h
    exact Option.noConfusion h
  · rw [if_neg h1] at h
    cases h2 : digitsToNat? (hostinfoPortStr nl) with
    | none =>
      rw [h2] at h
      exact Option.noConfusion h
    | some n =>
      rw [h2] at h
      have h' : (if n ≤ 65535 then some n else none) = some p := h
      by_cases h3 : n ≤ 65535
      · rw [if_pos h3] at h'
        injection h' with h'
        omega
      · rw [if_neg h3] at h'
        exact Option.noConfusion h'

theorem splitResultPort_append {value : Str} {p : Nat}
    (hc : containsChar value ':' = false) (ha : containsChar value '@' = false)
    (hb : containsChar value '[' = false) (hle : p ≤ 65535) :
    splitResultPort (value ++ ':' :: natRepr p) = some p := by
  obtain ⟨hdig, hne, hval⟩ := natRepr_spec p
  have hno_at : ∀ x ∈ value ++ ':' :: natRepr p, x ≠ '@' := by
    intro x hx
    rcases List.mem_append.mp hx with hx | hx
    · exact containsChar_eq_false_iff.mp ha x hx
    · rcases List.mem_cons.mp hx with rfl | hx
      · decide
      · exact (isDigit_ne (hdig x hx)).2.1
  have hno_br : containsChar (value ++ ':' :: natRepr p) '[' = false := by
    rw [containsChar_eq_false_iff]
    intro x hx
    rcases List.mem_append.mp hx with hx | hx
    · exact containsChar_eq_false_iff.mp hb x hx
    · rcases List.mem_cons.mp hx with rfl | hx
      · decide
      · exact (isDigit_ne (hdig x hx)).2.2
  have hpart : partitionAfter ':' (value ++ ':' :: natRepr p) = natRepr p :=
    partitionAfter_append (fun x hx => containsChar_eq_false_iff.mp hc x hx)
  simp only [splitResultPort, hostinfoPortStr]
  rw [afterLastAt_eq_self hno_at]
  rw [if_neg (show ¬ containsChar (value ++ ':' :: natRepr p) '[' = true by
    rw [hno_br]; simp)]
  rw [hpart, if_neg hne, hval]
  show (if p ≤ 65535 then some p else none) = some p
  rw [if_pos hle]

/-- C5 (amended): assigning to the `domain` property of a `ParsedUrl` whose
authority carries a (truthy, well-formed) port appends `:port` to the new
value whenever the port's decimal digits do not occur as a substring of the
value (in particular whenever the value does not already include a port);
if additionally the value is free of `:`, `@` and `[`, the resulting
authority parses back to the same port; scheme, path, query and fragment
are always unchanged. -/
theorem urls_C5_domain_setter (r : SplitResult) (value : Str) (p : Nat)
    (hport : splitResultPort r.netloc = some p) (hpos : 0 < p)
    (hsub : isSubstrB (natRepr p) value = false)
    (hc : containsChar value ':' = false) (ha : containsChar value '@' = false)
    (hb : containsChar value '[' = false) :
    (domainSet r value).netloc = value ++ ':' :: natRepr p ∧
    splitResultPort (domainSet r value).netloc = some p ∧
    (domainSet r value).scheme = r.scheme ∧ (domainSet r value).path = r.path ∧
    (domainSet r value).query = r.query ∧ (domainSet r value).fragment = r.fragment := by
  have hle := splitResultPort_le hport
  have hnl : (domainSet r value).netloc = value ++ ':' :: natRepr p := by
    show domainValue r value = value ++ ':' :: natRepr p
    unfold domainValue
    rw [hport]
    exact if_pos ⟨hpos, hsub⟩
  refine ⟨hnl, ?_, rfl, rfl, rfl, rfl⟩
  rw [hnl]
  exact splitResultPort_append hc ha hb hle

/-- C5 witness: replacing host `a` (port 8000) by `newhost` keeps the port. -/
theorem urls_C5_witness :
    (domainSet ⟨[], chars "a:8000", chars "/p", [], []⟩ (chars "newhost")).netloc =
      chars "newhost" ++ ':' :: natRepr 8000 ∧
    splitResultPort
      (domainSet ⟨[], chars "a:8000", chars "/p", [], []⟩ (chars "newhost")).netloc =
      some 8000 := by
  have h := urls_C5_domain_setter ⟨[], chars "a:8000", chars "/p", [], []⟩
    (chars "newhost") 8000 (by decide) (by decide) (by decide) (by decide) (by decide)
    (by decide)
  exact ⟨h.1, h.2.1⟩

/-- C5 counterexample: the new value `b8000` contains no port, yet the
existing port 8000 is dropped because its digits occur as a substring of
the value — refuting "preserving the existing port whenever the newly
assigned value doesn't already include one". -/
theorem urls_C5_counterexample :
    (parsedUrlInit (chars "//a:8000/p") [] [] [] true false).map
        (fun r => splitResultPort r.netloc) = .ok (some 8000) ∧
    containsChar (chars "b8000") ':' = false ∧
    (parsedUrlInit (chars "//a:8000/p") [] [] [] true false).map
        (fun r => splitResultPort (domainSet r (chars "b8000")).netloc) = .ok none := by
  exact ⟨rfl, rfl, rfl⟩

/-! ### Claim C8: DjUrl password-only decode -/

theorem djLoginSplit_password {enc : Bool} {constr : Str}
    (ha : containsChar constr '@' = false)
    (hp : isPrefixB (chars ":") constr = true) :
    djLoginSplit enc constr =
      (none, some (.str (if enc then decodeAt (pyStripChar ':' constr)
        else pyStripChar ':' constr)), []) := by
  have hf : findChar '@' constr = none :=
    findChar_eq_none_iff.mpr (containsChar_eq_false_iff.mp ha)
  unfold djLoginSplit
  rw [hf]
  show (if isPrefixB (chars ":") constr = true then
      ((none : Option PyVal), some (PyVal.str (if enc then decodeAt (pyStripChar ':' constr)
        else pyStripChar ':' constr)), ([] : Str))
    else (none, none, constr)) = _
  rw [if_pos hp]

/-- C8 (amended): when the decode input (after the marker and engine
stripping) contains no `@` and starts with `:`, the password is the
remainder with all leading and trailing `:` characters stripped
(`constr.strip(':')` — not only the single leading `:`), with `%40` decoded
to `@` exactly when the `?--atencoded` marker was present; host, port and
name stay absent; in particular
`DjUrl(":asfcasdf23%401:/!?--atencoded")` yields password
`asfcasdf23@1:/!`. -/
theorem urls_C8_password_decode :
    (∀ (dj : Str) (enc : Bool) (d : Str) (eng : Option PyVal) (constr : Str),
      djMarker (pyStrip dj) = (enc, d) → d ≠ [] →
      djEngineSplit d = (eng, constr) →
      containsChar constr '@' = false →
      isPrefixB (chars ":") constr = true →
      (djUrlDecode dj).password =
        some (.str (if enc then decodeAt (pyStripChar ':' constr)
          else pyStripChar ':' constr)) ∧
      (djUrlDecode dj).host = none ∧ (djUrlDecode dj).port = none ∧
      (djUrlDecode dj).name = none ∧ (djUrlDecode dj).engine = eng ∧
      (djUrlDecode dj).user = none) ∧
    (djUrlDecode (chars ":asfcasdf23%401:/!?--atencoded")).password =
      some (.str (chars "asfcasdf23@1:/!")) := by
  refine ⟨?_, rfl⟩
  intro dj enc d eng constr hM hd hE hat hpre
  have hL := @djLoginSplit_password enc constr hat hpre
  simp only [djUrlDecode, hM]
  rw [if_neg hd]
  simp only [hE, hL]
  simp
  exact ⟨rfl, rfl, rfl⟩

/-- C8 witness: the `?--atencoded` example satisfies the hypotheses. -/
theorem urls_C8_witness :
    (djUrlDecode (chars ":asfcasdf23%401:/!?--atencoded")).password =
      some (.str (if true then decodeAt (pyStripChar ':' (chars ":asfcasdf23%401:/!"))
        else pyStripChar ':' (chars ":asfcasdf23%401:/!"))) ∧
    (djUrlDecode (chars ":asfcasdf23%401:/!?--atencoded")).host = none ∧
    (djUrlDecode (chars ":asfcasdf23%401:/!?--atencoded")).port = none ∧
    (djUrlDecode (chars ":asfcasdf23%401:/!?--atencoded")).name = none := by
  have h := (urls_C8_password_decode.1 (chars ":asfcasdf23%401:/!?--atencoded") true
    (chars ":asfcasdf23%401:/!") none (chars ":asfcasdf23%401:/!")
    (by decide) (by decide) (by decide) (by decide) (by decide))
  exact ⟨h.1, h.2.1, h.2.2.1, h.2.2.2.1⟩

/-- C8 counterexample: on `::pw` the code strips both leading colons (and
any trailing ones), so the password is `pw`, not the claim's "everything
after that leading `:`" (`:pw`). -/
theorem urls_C8_counterexample :
    (djUrlDecode (chars "::pw")).password = some (.str (chars "pw")) ∧
    (djUrlDecode (chars "::pw")).password ≠ some (.str (chars ":pw")) := by
  exact ⟨rfl, by decide⟩
